import Mathlib

/-!
Verification development for the AGCP archive container engine.

The Go sources are shallowly embedded over byte lists (`List Nat`, each
element a byte value).  Strings in the Go code (relative paths, the root
name, destination paths) are modelled as their UTF-8 byte sequences,
since the container format and `filepath` operations treat them as plain
byte strings.  The LZ4 codec is an external collaborator and is passed in
as abstract `enc` / `dec` function parameters.  Multi-byte integers are
big-endian, and Go's unchecked integer casts appear as explicit `% 2^w`
reductions in the byte encoders.
-/

namespace AGCP

/-- Byte value of the path separator used by `filepath.Join`. -/
def slashByte : Nat := 47

/-- Byte value of the dot character. -/
def dotByte : Nat := 46

/-- Model of the path `"."` used as default output dir for file archives. -/
def dotPath : List Nat := [dotByte]

/-- Magic constant `"AGCP"` from `pkg/core/archive.go` as bytes. -/
def magicBytes : List Nat := [65, 71, 67, 80]

/-- Archive format version from `pkg/core/archive.go`. -/
def versionByte : Nat := 1

/-- ArchiveType value for a single-file archive (`ArchiveFile = 0`). -/
def archiveFileType : Nat := 0

/-- ArchiveType value for a directory archive (`ArchiveDir = 1`). -/
def archiveDirType : Nat := 1

/-- Big-endian byte encoding of `n` on `k` bytes; models Go's
`binary.Write(f, binary.BigEndian, uintK(n))`, where the unchecked cast
reduces `n` modulo `2^(8k)`. -/
def beBytes : Nat → Nat → List Nat
  | 0, _ => []
  | k + 1, n => beBytes k (n / 256) ++ [n % 256]

/-- Big-endian decoding of a byte list; models Go's `binary.Read` of a
big-endian unsigned integer. -/
def beVal (bs : List Nat) : Nat := bs.foldl (fun a b => a * 256 + b) 0

theorem beBytes_length (k n : Nat) : (beBytes k n).length = k := by
  induction k generalizing n with
  | zero => rfl
  | succ k ih => simp [beBytes, ih]

theorem beVal_append (a b : List Nat) :
    beVal (a ++ b) = b.foldl (fun x y => x * 256 + y) (beVal a) := by
  simp [beVal, List.foldl_append]

theorem beVal_beBytes (k n : Nat) : beVal (beBytes k n) = n % 2 ^ (8 * k) := by
  induction k generalizing n with
  | zero => simp [beBytes, beVal, Nat.mod_one]
  | succ k ih =>
      have h : beVal (beBytes k (n / 256) ++ [n % 256])
          = beVal (beBytes k (n / 256)) * 256 + n % 256 := by
        simp [beVal_append, beVal]
      have hpow : 2 ^ (8 * (k + 1)) = 2 ^ (8 * k) * 256 := by ring
      have hmm : n % (256 * 2 ^ (8 * k)) = n % 256 + 256 * (n / 256 % 2 ^ (8 * k)) :=
        Nat.mod_mul
      simp only [beBytes, h, ih, hpow]
      rw [Nat.mul_comm (2 ^ (8 * k)) 256, hmm]
      omega

theorem beVal_beBytes_of_lt {k n : Nat} (h : n < 2 ^ (8 * k)) :
    beVal (beBytes k n) = n := by
  rw [beVal_beBytes]; exact Nat.mod_eq_of_lt h

/-- EntrySource from `pkg/core/archive.go` (`Entry`): a relative path and
the bytes of the source file.  The Go struct stores the absolute source
file path instead of its content; in the pure model the file system
lookup is collapsed into the entry, so `content` is what reading
`FilePath` yields. -/
structure Entry where
  relPath : List Nat
  content : List Nat
  deriving Repr, DecidableEq

/-- DecompressTask from `pkg/core/archive.go`. -/
structure DecompressTask where
  relPath : List Nat
  originalSize : Nat
  compressedSize : Nat
  destPath : List Nat
  deriving Repr, DecidableEq

/-- Model of the output file owned by the Writer: its byte content plus
the current seek position. -/
structure WFile where
  data : List Nat
  pos : Nat
  deriving Repr, DecidableEq

/-- Positional write at the current seek position: overwrites existing
bytes and extends the file as needed (the Writer only ever writes at
positions at most `data.length`). -/
def wwrite (f : WFile) (bs : List Nat) : WFile :=
  { data := f.data.take f.pos ++ bs ++ f.data.drop (f.pos + bs.length),
    pos := f.pos + bs.length }

/-- Model of `f.Seek(n, io.SeekStart)`. -/
def wseek (f : WFile) (n : Nat) : WFile := { f with pos := n }

theorem wwrite_data_length (f : WFile) (bs : List Nat)
    (h : f.pos ≤ f.data.length) :
    (wwrite f bs).data.length = max f.data.length (f.pos + bs.length) := by
  simp only [wwrite, List.length_append, List.length_take, List.length_drop]
  omega

theorem wwrite_append (f : WFile) (bs : List Nat) (h : f.pos = f.data.length) :
    wwrite f bs = ⟨f.data ++ bs, f.data.length + bs.length⟩ := by
  simp [wwrite, h, List.drop_eq_nil_of_le]

theorem wwrite_wwrite (f : WFile) (a b : List Nat)
    (h : f.pos ≤ f.data.length) :
    wwrite (wwrite f a) b = wwrite f (a ++ b) := by
  have hta : (f.data.take f.pos).length = f.pos := by
    simp [List.length_take]; omega
  simp only [wwrite, WFile.mk.injEq]
  refine ⟨?_, ?_⟩
  · have h1 : (f.data.take f.pos ++ a ++ f.data.drop (f.pos + a.length)).take
        (f.pos + a.length) = f.data.take f.pos ++ a := by
      rw [List.take_append_eq_append_take]
      have : (f.data.take f.pos ++ a).length = f.pos + a.length := by
        simp [hta]
      rw [List.take_of_length_le (by omega), this]
      simp
    have h2 : (f.data.take f.pos ++ a ++ f.data.drop (f.pos + a.length)).drop
        (f.pos + a.length + b.length) = f.data.drop (f.pos + a.length + b.length) := by
      rw [List.drop_append_eq_append_drop]
      have hlen : (f.data.take f.pos ++ a).length = f.pos + a.length := by
        simp [hta]
      rw [List.drop_eq_nil_of_le (by omega), hlen]
      simp only [List.nil_append]
      rw [List.drop_drop]
      congr 1
      omega
    rw [h1, h2]
    simp only [List.append_assoc, List.length_append, Nat.add_assoc]
  · simp only [List.length_append]
    omega

theorem wwrite_at (A X C bs : List Nat) (h : bs.length = X.length) :
    wwrite ⟨A ++ X ++ C, A.length⟩ bs = ⟨A ++ bs ++ C, A.length + bs.length⟩ := by
  simp only [wwrite, WFile.mk.injEq]
  refine ⟨?_, ?_⟩
  · have h1 : ((A ++ X ++ C).take A.length) = A := by
      rw [List.append_assoc, List.take_append_eq_append_take,
        List.take_of_length_le (le_refl _)]
      simp
    have h2 : ((A ++ X ++ C).drop (A.length + bs.length)) = C := by
      rw [h, List.drop_append_eq_append_drop]
      have hl : (A ++ X).length = A.length + X.length := by simp
      rw [List.drop_eq_nil_of_le (by simp), hl]
      simp
    rw [h1, h2]
  · trivial

/-- Placeholder slot size for an entry, from `compressFiles`:
`2 + len(entry.RelPath) + 8 + 8`. -/
def placeholderSize (e : Entry) : Nat := 2 + e.relPath.length + 8 + 8

/-- Bytes of one entry-table record as patched in by
`updateEntryMetadata`. -/
def entryRecord (relPath : List Nat) (orig comp : Nat) : List Nat :=
  beBytes 2 relPath.length ++ relPath ++ beBytes 8 orig ++ beBytes 8 comp

theorem entryRecord_length (relPath : List Nat) (orig comp : Nat) :
    (entryRecord relPath orig comp).length = 2 + relPath.length + 8 + 8 := by
  simp [entryRecord, beBytes_length]
  omega

/-- writeArchiveHeader from `tests/core/compress.go`: magic, version,
archive type byte, root-name length (`uint16` cast), root name, entry
count (`uint32` cast). -/
def writeArchiveHeader (f : WFile) (archiveType : Nat) (rootName : List Nat)
    (entries : List Entry) : WFile :=
  let f := wwrite f magicBytes
  let f := wwrite f [versionByte]
  let f := wwrite f [archiveType % 256]
  let f := wwrite f (beBytes 2 rootName.length)
  let f := wwrite f rootName
  wwrite f (beBytes 4 entries.length)

/-- updateEntryMetadata from `tests/core/compress.go`: seek to the
reserved slot and patch in the relative-path length (`uint16` cast), the
path bytes and the two true sizes. -/
def updateEntryMetadata (f : WFile) (offset : Nat) (relPath : List Nat)
    (originalSize compressedSize : Nat) : WFile :=
  let f := wseek f offset
  let f := wwrite f (beBytes 2 relPath.length)
  let f := wwrite f relPath
  let f := wwrite f (beBytes 8 originalSize)
  wwrite f (beBytes 8 compressedSize)

/-- compressFileStreaming from `tests/core/compress.go`, success path:
returns the original byte count and the file state after appending the
compressed stream.  A zero-length source returns `0` before the codec is
ever invoked, and the unused lz4 writer emits no bytes when closed, so
nothing is written. -/
def compressFileStreaming (enc : List Nat → List Nat) (content : List Nat)
    (f : WFile) : Nat × WFile :=
  if content = [] then (0, f)
  else (content.length, wwrite f (enc content))

/-- Bytes that `compressFileStreaming` appends to the archive for a given
source content. -/
def encBytes (enc : List Nat → List Nat) (content : List Nat) : List Nat :=
  if content = [] then [] else enc content

/-- Phase 3 of `compressFiles` (the placeholder loop, as structural
recursion): reserve one zero placeholder slot per entry, recording each
slot's starting file offset. -/
def reservePlaceholders (f : WFile) : List Entry → WFile × List Nat
  | [] => (f, [])
  | e :: es =>
    let off := f.pos
    let r := reservePlaceholders (wwrite f (List.replicate (placeholderSize e) 0)) es
    (r.1, off :: r.2)

/-- Phases 4 and 5 of `compressFiles` (the compress-and-update loop, as
structural recursion): for each entry (paired with its reserved slot
offset) stream the compressed bytes at the current end of file, then
seek back and patch the slot with the true sizes, then seek forward
again. -/
def writeEntriesPayload (enc : List Nat → List Nat) (f : WFile) :
    List (Entry × Nat) → WFile
  | [] => f
  | p :: rest =>
    let startPos := f.pos
    let r := compressFileStreaming enc p.1.content f
    let endPos := r.2.pos
    let compressedSize := endPos - startPos
    let f2 := updateEntryMetadata r.2 p.2 p.1.relPath r.1 compressedSize
    writeEntriesPayload enc (wseek f2 endPos) rest

/-- compressFiles from `tests/core/compress.go`, success path: header,
placeholder slots, then payload with metadata backfill. -/
def compressFiles (enc : List Nat → List Nat) (entries : List Entry)
    (archiveType : Nat) (rootName : List Nat) : WFile :=
  let f := writeArchiveHeader ⟨[], 0⟩ archiveType rootName entries
  let r := reservePlaceholders f entries
  writeEntriesPayload enc r.1 (entries.zip r.2)

/-- calculateTotalSize from `tests/core/compress.go`: sum of the source
sizes, with a zero total normalized to `1`. -/
def calculateTotalSize (entries : List Entry) : Nat :=
  let totalSize := (entries.map (fun e => e.content.length)).sum
  if totalSize = 0 then 1 else totalSize

/-- Compress from `tests/core/compress.go`, success path, after the
entry list has been enumerated: the first component is the container
file written, the second is the total handed to `progress.Init`, and the
third is the value the Go function returns to its caller (its only
return is an `error`, `nil` on success). -/
def CompressGo (enc : List Nat → List Nat) (entries : List Entry)
    (archiveType : Nat) (rootName : List Nat) :
    WFile × Nat × Except String Unit :=
  (compressFiles enc entries archiveType rootName,
   calculateTotalSize entries, Except.ok ())

/-- Header bytes of a container as laid out by `writeArchiveHeader`. -/
def headerBytes (archiveType : Nat) (rootName : List Nat) (n : Nat) :
    List Nat :=
  magicBytes ++ [versionByte] ++ [archiveType % 256] ++
    beBytes 2 rootName.length ++ rootName ++ beBytes 4 n

/-- Table record of one entry after backfill: sizes are the source length
and the length of the compressed stream written for it. -/
def recordBytes (enc : List Nat → List Nat) (e : Entry) : List Nat :=
  entryRecord e.relPath e.content.length (encBytes enc e.content).length

/-- Entry table bytes of a finished container. -/
def tableBytes (enc : List Nat → List Nat) (entries : List Entry) : List Nat :=
  (entries.map (recordBytes enc)).flatten

/-- Payload region bytes of a finished container. -/
def payloadBytes (enc : List Nat → List Nat) (entries : List Entry) : List Nat :=
  (entries.map (fun e => encBytes enc e.content)).flatten

/-- Full container layout: header, entry table, payload region. -/
def containerBytes (enc : List Nat → List Nat) (archiveType : Nat)
    (rootName : List Nat) (entries : List Entry) : List Nat :=
  headerBytes archiveType rootName entries.length ++ tableBytes enc entries
    ++ payloadBytes enc entries

theorem headerBytes_length (t : Nat) (rootName : List Nat) (n : Nat) :
    (headerBytes t rootName n).length = 12 + rootName.length := by
  simp [headerBytes, magicBytes, beBytes_length]
  omega

/-- Concatenated placeholder bytes for a list of entries. -/
def phBytes (entries : List Entry) : List Nat :=
  (entries.map (fun e => List.replicate (placeholderSize e) 0)).flatten

/-- Starting offsets of the reserved metadata slots. -/
def slotOffsets (base : Nat) : List Entry → List Nat
  | [] => []
  | e :: es => base :: slotOffsets (base + placeholderSize e) es

theorem wwrite_aligned (f : WFile) (bs : List Nat) (h : f.pos = f.data.length) :
    wwrite f bs = ⟨f.data ++ bs, (f.data ++ bs).length⟩ := by
  rw [wwrite_append f bs h]
  simp

theorem wwrite_aligned2 (d bs : List Nat) :
    wwrite ⟨d, d.length⟩ bs = ⟨d ++ bs, (d ++ bs).length⟩ :=
  wwrite_aligned ⟨d, d.length⟩ bs rfl

theorem writeArchiveHeader_eq (f : WFile) (t : Nat) (rn : List Nat)
    (es : List Entry) (h : f.pos = f.data.length) :
    writeArchiveHeader f t rn es
      = ⟨f.data ++ headerBytes t rn es.length,
         (f.data ++ headerBytes t rn es.length).length⟩ := by
  simp only [writeArchiveHeader]
  rw [wwrite_aligned f magicBytes h, wwrite_aligned2, wwrite_aligned2,
    wwrite_aligned2, wwrite_aligned2, wwrite_aligned2]
  simp [headerBytes, List.append_assoc]

theorem reservePlaceholders_eq (entries : List Entry) :
    ∀ d : List Nat,
    reservePlaceholders ⟨d, d.length⟩ entries
      = (⟨d ++ phBytes entries, (d ++ phBytes entries).length⟩,
         slotOffsets d.length entries) := by
  induction entries with
  | nil =>
      intro d
      simp [reservePlaceholders, phBytes, slotOffsets]
  | cons e es ih =>
      intro d
      simp only [reservePlaceholders]
      rw [wwrite_aligned2]
      rw [ih (d ++ List.replicate (placeholderSize e) 0)]
      have hlen : (d ++ List.replicate (placeholderSize e) 0).length
          = d.length + placeholderSize e := by simp
      rw [hlen]
      simp only [phBytes, slotOffsets, List.map_cons, List.flatten_cons,
        Prod.mk.injEq, WFile.mk.injEq]
      refine ⟨⟨?_, ?_⟩, trivial⟩
      · simp [List.append_assoc]
      · simp [List.append_assoc]

theorem compressFileStreaming_aligned (enc : List Nat → List Nat)
    (c : List Nat) (f : WFile) (h : f.pos = f.data.length) :
    compressFileStreaming enc c f
      = (c.length, ⟨f.data ++ encBytes enc c, (f.data ++ encBytes enc c).length⟩) := by
  by_cases hc : c = []
  · subst hc
    cases f with
    | mk d p =>
        simp only [compressFileStreaming, encBytes, if_pos rfl]
        simp_all
  · simp only [compressFileStreaming, encBytes, if_neg hc]
    rw [wwrite_aligned _ _ h]

theorem updateEntryMetadata_eq (s : WFile) (off : Nat) (rp : List Nat)
    (o c : Nat) (h : off ≤ s.data.length) :
    updateEntryMetadata s off rp o c = wwrite (wseek s off) (entryRecord rp o c) := by
  have hpos : (wseek s off).pos ≤ (wseek s off).data.length := h
  simp only [updateEntryMetadata, entryRecord]
  rw [wwrite_wwrite _ _ _ hpos, wwrite_wwrite _ _ _ hpos, wwrite_wwrite _ _ _ hpos]

theorem writeEntriesPayload_eq (enc : List Nat → List Nat) :
    ∀ (entries : List Entry) (A B : List Nat),
    writeEntriesPayload enc
        ⟨A ++ phBytes entries ++ B, (A ++ phBytes entries ++ B).length⟩
        (entries.zip (slotOffsets A.length entries))
      = ⟨A ++ tableBytes enc entries ++ (B ++ payloadBytes enc entries),
         (A ++ tableBytes enc entries ++ (B ++ payloadBytes enc entries)).length⟩ := by
  intro entries
  induction entries with
  | nil =>
      intro A B
      simp [writeEntriesPayload, phBytes, tableBytes, payloadBytes, slotOffsets]
  | cons e es ih =>
      intro A B
      have hph : phBytes (e :: es)
          = List.replicate (placeholderSize e) 0 ++ phBytes es := by
        simp [phBytes]
      have hso : slotOffsets A.length (e :: es)
          = A.length :: slotOffsets (A.length + placeholderSize e) es := rfl
      rw [hph, hso, List.zip_cons_cons]
      set D : List Nat :=
        A ++ (List.replicate (placeholderSize e) 0 ++ phBytes es) ++ B with hD
      simp only [writeEntriesPayload]
      rw [compressFileStreaming_aligned enc e.content ⟨D, D.length⟩ rfl]
      simp only []
      have hsub : (D ++ encBytes enc e.content).length - D.length
          = (encBytes enc e.content).length := by simp
      rw [hsub]
      have hoff : A.length ≤
          (⟨D ++ encBytes enc e.content, (D ++ encBytes enc e.content).length⟩
            : WFile).data.length := by
        simp only [hD, List.length_append]
        omega
      rw [updateEntryMetadata_eq _ _ _ _ _ hoff]
      have hshape : D ++ encBytes enc e.content
          = A ++ List.replicate (placeholderSize e) 0 ++
            (phBytes es ++ B ++ encBytes enc e.content) := by
        simp [hD, List.append_assoc]
      have hrecl : (entryRecord e.relPath e.content.length
          (encBytes enc e.content).length).length
          = (List.replicate (placeholderSize e) 0).length := by
        rw [entryRecord_length]
        simp only [List.length_replicate, placeholderSize]
      have hw : wwrite (wseek ⟨D ++ encBytes enc e.content,
            (D ++ encBytes enc e.content).length⟩ A.length)
            (entryRecord e.relPath e.content.length (encBytes enc e.content).length)
          = ⟨A ++ entryRecord e.relPath e.content.length (encBytes enc e.content).length
              ++ (phBytes es ++ B ++ encBytes enc e.content),
             A.length + (entryRecord e.relPath e.content.length
              (encBytes enc e.content).length).length⟩ := by
        have hwa := wwrite_at A (List.replicate (placeholderSize e) 0)
          (phBytes es ++ B ++ encBytes enc e.content)
          (entryRecord e.relPath e.content.length (encBytes enc e.content).length)
          hrecl
        simp only [wseek]
        rw [hshape]
        exact hwa
      rw [hw]
      simp only [wseek]
      have hre : A ++ entryRecord e.relPath e.content.length (encBytes enc e.content).length
            ++ (phBytes es ++ B ++ encBytes enc e.content)
          = (A ++ recordBytes enc e) ++ phBytes es ++ (B ++ encBytes enc e.content) := by
        simp [recordBytes, List.append_assoc]
      rw [hre]
      have hseek : (D ++ encBytes enc e.content).length
          = ((A ++ recordBytes enc e) ++ phBytes es ++ (B ++ encBytes enc e.content)).length := by
        simp only [hD, List.length_append, List.length_replicate, recordBytes,
          entryRecord_length, placeholderSize]
        omega
      rw [hseek]
      have hAlen : (A ++ recordBytes enc e).length = A.length + placeholderSize e := by
        simp only [List.length_append, recordBytes, entryRecord_length, placeholderSize]
      rw [← hAlen]
      rw [ih (A ++ recordBytes enc e) (B ++ encBytes enc e.content)]
      have htb : tableBytes enc (e :: es) = recordBytes enc e ++ tableBytes enc es := by
        simp [tableBytes]
      have hpb : payloadBytes enc (e :: es)
          = encBytes enc e.content ++ payloadBytes enc es := by
        simp [payloadBytes]
      rw [htb, hpb]
      simp [List.append_assoc]

/-- Main writer-flattening lemma: the two-pass seek-and-patch protocol of
`compressFiles` produces exactly the flat container layout. -/
theorem compressFiles_data (enc : List Nat → List Nat) (entries : List Entry)
    (t : Nat) (rootName : List Nat) :
    compressFiles enc entries t rootName
      = ⟨containerBytes enc t rootName entries,
         (containerBytes enc t rootName entries).length⟩ := by
  simp only [compressFiles]
  rw [writeArchiveHeader_eq _ _ _ _ rfl]
  simp only [List.nil_append]
  rw [reservePlaceholders_eq entries (headerBytes t rootName entries.length)]
  have key := writeEntriesPayload_eq enc entries (headerBytes t rootName entries.length) []
  simp only [List.append_nil, List.nil_append] at key
  rw [key]
  simp [containerBytes]

/-! Reader side: the buffered reader, the header parser, the destination
resolver and the extraction logic from `pkg/core/decompress.go`. -/

/-- Model of `bufio.NewReader(f)` over an opened file: `data` is the
file's bytes, `pos` the logical position of the parser (bytes consumed),
`rawPos` the underlying file descriptor's position (bytes read from the
OS, possibly ahead of `pos` because the reader buffers).  The buffer's
content is determined by the pair: it is `data[pos, rawPos)`, so
`Buffered() = rawPos - pos`. -/
structure BufReader where
  data : List Nat
  pos : Nat
  rawPos : Nat
  deriving Repr, DecidableEq

/-- Number of bytes read ahead but not yet consumed, i.e. Go's
`br.Buffered()`. -/
def BufReader.buffered (s : BufReader) : Nat := s.rawPos - s.pos

/-- Well-formedness of a buffered-reader state. -/
def BufReader.Inv (s : BufReader) : Prop :=
  s.pos ≤ s.rawPos ∧ s.rawPos ≤ s.data.length

/-- Default buffer size of `bufio.NewReader`. -/
def bufioSize : Nat := 4096

/-- Consume one byte: serve it from the buffer if one is pending,
otherwise refill the buffer with up to `bufioSize` bytes from the file
(advancing `rawPos`) and serve the first; at end of file, fail. -/
def readByte (s : BufReader) : Option (Nat × BufReader) :=
  if s.pos < s.rawPos then
    some (s.data.getD s.pos 0, { s with pos := s.pos + 1 })
  else if s.pos < s.data.length then
    some (s.data.getD s.pos 0,
      { s with pos := s.pos + 1,
               rawPos := min (s.pos + bufioSize) s.data.length })
  else none

/-- Model of `io.ReadFull(br, buf)` / `binary.Read(br, ...)` for `n`
bytes: all-or-nothing. -/
def readBytes : Nat → BufReader → Option (List Nat × BufReader)
  | 0, s => some ([], s)
  | n + 1, s =>
    (readByte s).bind fun p =>
      (readBytes n p.2).bind fun q => some (p.1 :: q.1, q.2)

theorem drop_take_succ_getD (l : List Nat) (p n : Nat) (h : p < l.length) :
    (l.drop p).take (n + 1) = l.getD p 0 :: (l.drop (p + 1)).take n := by
  have hg : l.getD p 0 = l[p] := List.getD_eq_getElem l 0 h
  rw [List.drop_eq_getElem_cons h, hg, List.take_succ_cons]

theorem readByte_spec (s : BufReader) (hInv : s.Inv) (h : s.pos < s.data.length) :
    ∃ s1 : BufReader, readByte s = some (s.data.getD s.pos 0, s1) ∧
      s1.data = s.data ∧ s1.pos = s.pos + 1 ∧ s1.Inv := by
  obtain ⟨h1, h2⟩ := hInv
  by_cases hb : s.pos < s.rawPos
  · refine ⟨⟨s.data, s.pos + 1, s.rawPos⟩, ?_, rfl, rfl, hb, h2⟩
    simp only [readByte, if_pos hb]
  · refine ⟨⟨s.data, s.pos + 1, min (s.pos + bufioSize) s.data.length⟩,
      ?_, rfl, rfl, ?_, Nat.min_le_right _ _⟩
    · simp only [readByte, if_neg hb, if_pos h]
    · refine Nat.le_min.mpr ⟨?_, h⟩
      simp only [bufioSize]
      omega

theorem readByte_some (s : BufReader) (b : Nat) (s1 : BufReader)
    (hInv : s.Inv) (h : readByte s = some (b, s1)) :
    s.pos < s.data.length ∧ b = s.data.getD s.pos 0 ∧
      s1.data = s.data ∧ s1.pos = s.pos + 1 ∧ s1.Inv := by
  obtain ⟨h1, h2⟩ := hInv
  simp only [readByte] at h
  by_cases hb : s.pos < s.rawPos
  · rw [if_pos hb] at h
    simp only [Option.some.injEq, Prod.mk.injEq] at h
    obtain ⟨hb1, hb2⟩ := h
    subst hb2
    exact ⟨by omega, hb1.symm, rfl, rfl, hb, h2⟩
  · rw [if_neg hb] at h
    by_cases hl : s.pos < s.data.length
    · rw [if_pos hl] at h
      simp only [Option.some.injEq, Prod.mk.injEq] at h
      obtain ⟨hb1, hb2⟩ := h
      subst hb2
      refine ⟨hl, hb1.symm, rfl, rfl, ?_, Nat.min_le_right _ _⟩
      refine Nat.le_min.mpr ⟨?_, hl⟩
      simp only [bufioSize]
      omega
    · rw [if_neg hl] at h
      exact absurd h (by simp)

theorem readBytes_spec (n : Nat) :
    ∀ s : BufReader, s.Inv → s.pos + n ≤ s.data.length →
    ∃ s2 : BufReader, readBytes n s = some ((s.data.drop s.pos).take n, s2) ∧
      s2.data = s.data ∧ s2.pos = s.pos + n ∧ s2.Inv := by
  induction n with
  | zero =>
      intro s hInv _
      refine ⟨s, ?_, rfl, rfl, ?_⟩
      · simp [readBytes]
      · exact hInv
  | succ n ih =>
      intro s hInv hle
      have hp : s.pos < s.data.length := by omega
      obtain ⟨s1, hrb, hd1, hp1, hi1⟩ := readByte_spec s hInv hp
      obtain ⟨s2, hrbs, hd2, hp2, hi2⟩ := ih s1 hi1 (by rw [hd1, hp1]; omega)
      refine ⟨s2, ?_, by rw [hd2, hd1], by rw [hp2, hp1]; omega, ?_⟩
      · rw [drop_take_succ_getD s.data s.pos n hp]
        rw [hd1, hp1] at hrbs
        simp only [readBytes, hrb, Option.some_bind, hrbs]
      · exact hi2

theorem readBytes_some (n : Nat) :
    ∀ (s : BufReader) (bs : List Nat) (s2 : BufReader), s.Inv →
    readBytes n s = some (bs, s2) →
    s.pos + n ≤ s.data.length ∧ bs = (s.data.drop s.pos).take n ∧
      bs.length = n ∧ s2.data = s.data ∧ s2.pos = s.pos + n ∧ s2.Inv := by
  induction n with
  | zero =>
      intro s bs s2 hInv h
      obtain ⟨ha, hbd⟩ := hInv
      simp only [readBytes, Option.some.injEq, Prod.mk.injEq] at h
      obtain ⟨hb, hs⟩ := h
      subst hb
      subst hs
      exact ⟨by omega, by simp, rfl, rfl, by omega, ha, hbd⟩
  | succ n ih =>
      intro s bs s2 hInv h
      simp only [readBytes] at h
      cases hb : readByte s with
      | none => rw [hb] at h; exact absurd h (by simp)
      | some r =>
          obtain ⟨b, s1⟩ := r
          rw [hb] at h
          simp only [Option.some_bind] at h
          obtain ⟨hp, hbv, hd1, hp1, hi1⟩ := readByte_some s b s1 hInv hb
          cases hbs : readBytes n s1 with
          | none => rw [hbs] at h; exact absurd h (by simp)
          | some r2 =>
              obtain ⟨bs1, s2x⟩ := r2
              rw [hbs] at h
              simp only [Option.some_bind, Option.some.injEq, Prod.mk.injEq] at h
              obtain ⟨hb1, hs1⟩ := h
              obtain ⟨hle, hbsv, hlen, hd2, hp2, hi2⟩ := ih s1 bs1 s2x hi1 hbs
              subst hb1
              subst hs1
              rw [hp1] at hle hbsv hp2
              rw [hd1] at hle hbsv hd2
              refine ⟨by omega, ?_, by simp [hlen], hd2, by rw [hp2]; omega, ?_⟩
              · rw [drop_take_succ_getD s.data s.pos n hp, hbv, hbsv]
              · exact hi2

theorem readBytes_exact (s : BufReader) (pre mid post : List Nat) (n : Nat)
    (hInv : s.Inv) (hdata : s.data = pre ++ (mid ++ post))
    (hpos : s.pos = pre.length) (hn : n = mid.length) :
    ∃ s2 : BufReader, readBytes n s = some (mid, s2) ∧
      s2.data = s.data ∧ s2.pos = s.pos + n ∧ s2.Inv := by
  have hle : s.pos + n ≤ s.data.length := by
    rw [hdata, hpos, hn]
    simp
  obtain ⟨s2, hr, hd, hp, hi⟩ := readBytes_spec n s hInv hle
  refine ⟨s2, ?_, hd, hp, hi⟩
  rw [hr]
  have hmid : (s.data.drop s.pos).take n = mid := by
    rw [hdata, hpos, List.drop_append_eq_append_drop,
      List.drop_eq_nil_of_le (le_refl _), Nat.sub_self, List.drop_zero,
      List.nil_append, hn, List.take_append_eq_append_take,
      List.take_of_length_le (le_refl _), Nat.sub_self, List.take_zero,
      List.append_nil]
  rw [hmid]

/-- filepath.Join of two path components, restricted to the shapes the
engine produces: an empty component disappears, otherwise the components
are joined with a separator. -/
def pjoin (a b : List Nat) : List Nat :=
  if a = [] then b else if b = [] then a else a ++ slashByte :: b

/-- Bytes of the `".agcp"` filename extension. -/
def agcpExt : List Nat := [dotByte, 97, 103, 99, 112]

/-- filepath.Base: everything after the last separator, with Go's edge
cases for the empty path and an all-separator path. -/
def basename (p : List Nat) : List Nat :=
  if p = [] then dotPath
  else
    let q := (p.reverse.dropWhile (fun c => c = slashByte)).reverse
    if q = [] then [slashByte]
    else (q.reverse.takeWhile (fun c => c ≠ slashByte)).reverse

/-- filepath.Ext: the suffix of the final element starting at its last
dot, empty if there is none. -/
def extOf (p : List Nat) : List Nat :=
  let r := p.reverse.takeWhile (fun c => c ≠ slashByte)
  if r.contains dotByte then
    (r.takeWhile (fun c => c ≠ dotByte) ++ [dotByte]).reverse
  else []

/-- Fallback output name from `determineDestPath`: the archive file's
base name, with a trailing `".agcp"` extension stripped. -/
def fallbackName (inputPath : List Nat) : List Nat :=
  let fileName := basename inputPath
  if extOf fileName = agcpExt then fileName.take (fileName.length - agcpExt.length)
  else fileName

/-- determineDestPath from `pkg/core/decompress.go`: decides where an
extracted entry is written.  `isDirFn u` models
`os.Stat(u) == nil && info.IsDir()`; `archiveType` is the raw byte read
from the header (`1 = ArchiveDir`, `0 = ArchiveFile`, anything else
falls through to the empty path like Go's uncovered `switch`). -/
def determineDestPath (isDirFn : List Nat → Bool) (archiveType : Nat)
    (baseOutputDir relPath rootName inputPath userOutputName : List Nat) :
    List Nat :=
  if archiveType = archiveDirType then
    pjoin baseOutputDir relPath
  else if archiveType = archiveFileType then
    if userOutputName ≠ [] then
      if isDirFn userOutputName then
        if relPath = [] then pjoin userOutputName rootName
        else pjoin userOutputName relPath
      else if relPath ≠ [] then pjoin userOutputName relPath
      else userOutputName
    else if relPath ≠ [] then pjoin baseOutputDir relPath
    else
      let fileName := if rootName = [] then fallbackName inputPath else rootName
      pjoin baseOutputDir fileName
  else []

/-- Lift of a buffered read into the parser's error monad: models the
`if err != nil { return ... fmt.Errorf(msg) }` pattern around each
`io.ReadFull` / `binary.Read` call. -/
def rdFull (msg : String) (n : Nat) (br : BufReader) :
    Except String (List Nat × BufReader) :=
  match readBytes n br with
  | none => Except.error msg
  | some p => Except.ok p

theorem except_bind_ok {α β : Type} (a : α) (f : α → Except String β) :
    (Except.ok a).bind f = f a := rfl

theorem except_bind_err {α β : Type} (msg : String)
    (f : α → Except String β) :
    (Except.error msg).bind f = (Except.error msg : Except String β) := rfl

theorem rdFull_of_some {n : Nat} {br : BufReader} {p : List Nat × BufReader}
    (msg : String) (h : readBytes n br = some p) :
    rdFull msg n br = Except.ok p := by
  simp [rdFull, h]

theorem rdFull_of_none {n : Nat} {br : BufReader} (msg : String)
    (h : readBytes n br = none) :
    rdFull msg n br = Except.error msg := by
  simp [rdFull, h]

theorem rdFull_ok {msg : String} {n : Nat} {br : BufReader}
    {p : List Nat × BufReader} (h : rdFull msg n br = Except.ok p) :
    readBytes n br = some p := by
  cases hr : readBytes n br with
  | none =>
      rw [rdFull_of_none msg hr] at h
      exact absurd h (by simp)
  | some q =>
      rw [rdFull_of_some msg hr] at h
      simp only [Except.ok.injEq] at h
      simp [h]

/-- Entry-table loop of `readArchiveHeader`: read `relPathLen` (2 bytes),
the path bytes, then the two 8-byte sizes, and resolve the destination,
for each of the `numEntries` entries.  Each failed read aborts the whole
parse with that read's error. -/
def readEntries (isDirFn : List Nat → Bool) (archiveType : Nat)
    (outputDir rootName inputName userOut : List Nat) :
    Nat → BufReader → Except String (List DecompressTask × BufReader)
  | 0, br => .ok ([], br)
  | n + 1, br =>
    (rdFull "read relPathLen" 2 br).bind fun p1 =>
    (rdFull "read relPath" (beVal p1.1) p1.2).bind fun p2 =>
    (rdFull "read originalSize" 8 p2.2).bind fun p3 =>
    (rdFull "read compressedSize" 8 p3.2).bind fun p4 =>
    (readEntries isDirFn archiveType outputDir rootName inputName userOut
      n p4.2).bind fun pr =>
    Except.ok (⟨p2.1, beVal p3.1, beVal p4.1,
      determineDestPath isDirFn archiveType outputDir p2.1 rootName
        inputName userOut⟩ :: pr.1, pr.2)

/-- readArchiveHeader from `pkg/core/decompress.go`: validate magic and
version, read kind and root name, decide the top-level output path, read
the entry table, then compute the payload start offset as the raw file
position minus the bytes the buffered reader holds unconsumed. -/
def readArchiveHeader (isDirFn : List Nat → Bool) (data : List Nat)
    (inputName decompressedName : List Nat) :
    Except String (List DecompressTask × Nat × List Nat × Nat) :=
  let br0 : BufReader := ⟨data, 0, 0⟩
  (rdFull "read magic" 4 br0).bind fun pm =>
  if pm.1 ≠ magicBytes then .error "invalid magic number"
  else
    (rdFull "read version" 1 pm.2).bind fun pv =>
    if beVal pv.1 ≠ versionByte then .error "unsupported version"
    else
      (rdFull "read archive type" 1 pv.2).bind fun pt =>
      (rdFull "read root name length" 2 pt.2).bind fun prl =>
      (rdFull "read root name" (beVal prl.1) prl.2).bind fun prn =>
      let archiveType := beVal pt.1
      let rootName := prn.1
      let outputDir :=
        if decompressedName ≠ [] then decompressedName
        else if archiveType = archiveDirType then rootName
        else dotPath
      (rdFull "read num entries" 4 prn.2).bind fun pn =>
      (readEntries isDirFn archiveType outputDir rootName inputName
        decompressedName (beVal pn.1) pn.2).bind fun pe =>
      let offset := pe.2.rawPos
      let startOffset := offset - pe.2.buffered
      .ok (pe.1, startOffset, outputDir, archiveType)

/-- ExtractionTask produced for one entry of a container built by the
Writer: sizes are the true source and compressed lengths, the
destination comes from the Destination Resolver. -/
def builtTask (isDirFn : List Nat → Bool) (enc : List Nat → List Nat)
    (archiveType : Nat) (outputDir rootName inputName userOut : List Nat)
    (e : Entry) : DecompressTask :=
  ⟨e.relPath, e.content.length, (encBytes enc e.content).length,
   determineDestPath isDirFn archiveType outputDir e.relPath rootName
     inputName userOut⟩

theorem readEntries_exact (isDirFn : List Nat → Bool)
    (enc : List Nat → List Nat) (archiveType : Nat)
    (outputDir rootName inputName userOut : List Nat) :
    ∀ (es : List Entry) (s : BufReader) (pre post : List Nat),
    s.Inv → s.data = pre ++ (tableBytes enc es ++ post) →
    s.pos = pre.length →
    (∀ e ∈ es, e.relPath.length < 2 ^ 16) →
    (∀ e ∈ es, e.content.length < 2 ^ 64) →
    (∀ e ∈ es, (encBytes enc e.content).length < 2 ^ 64) →
    ∃ s2 : BufReader,
      readEntries isDirFn archiveType outputDir rootName inputName userOut
        es.length s
        = .ok (es.map
            (builtTask isDirFn enc archiveType outputDir rootName inputName
              userOut), s2) ∧
      s2.data = s.data ∧ s2.pos = s.pos + (tableBytes enc es).length ∧
      s2.Inv := by
  intro es
  induction es with
  | nil =>
      intro s pre post hInv hdata hpos _ _ _
      refine ⟨s, ?_, rfl, ?_, ?_⟩
      · simp [readEntries]
      · simp [tableBytes]
      · exact hInv
  | cons e es ih =>
      intro s pre post hInv hdata hpos hrel horig hcomp
      have hrel1 := hrel e (by simp)
      have horig1 := horig e (by simp)
      have hcomp1 := hcomp e (by simp)
      have hdata1 : s.data = pre ++ (beBytes 2 e.relPath.length ++
          (e.relPath ++ (beBytes 8 e.content.length ++
            (beBytes 8 (encBytes enc e.content).length ++
              (tableBytes enc es ++ post))))) := by
        rw [hdata]
        simp [tableBytes, recordBytes, entryRecord, List.append_assoc]
      obtain ⟨sA, hr1, hd1, hppos1, hi1⟩ :=
        readBytes_exact s pre (beBytes 2 e.relPath.length)
          (e.relPath ++ (beBytes 8 e.content.length ++
            (beBytes 8 (encBytes enc e.content).length ++
              (tableBytes enc es ++ post)))) 2 hInv hdata1 hpos
          (beBytes_length 2 e.relPath.length).symm
      have hbv1 : beVal (beBytes 2 e.relPath.length) = e.relPath.length :=
        beVal_beBytes_of_lt hrel1
      obtain ⟨sB, hr2, hd2, hppos2, hi2⟩ :=
        readBytes_exact sA (pre ++ beBytes 2 e.relPath.length) e.relPath
          (beBytes 8 e.content.length ++
            (beBytes 8 (encBytes enc e.content).length ++
              (tableBytes enc es ++ post))) e.relPath.length hi1
          (by rw [hd1, hdata1]; simp [List.append_assoc])
          (by rw [hppos1, hpos]; simp [beBytes_length]) rfl
      obtain ⟨sC, hr3, hd3, hppos3, hi3⟩ :=
        readBytes_exact sB (pre ++ beBytes 2 e.relPath.length ++ e.relPath)
          (beBytes 8 e.content.length)
          (beBytes 8 (encBytes enc e.content).length ++
            (tableBytes enc es ++ post)) 8 hi2
          (by rw [hd2, hd1, hdata1]; simp [List.append_assoc])
          (by rw [hppos2, hppos1, hpos]; simp [beBytes_length]; omega)
          (beBytes_length 8 e.content.length).symm
      obtain ⟨sD, hr4, hd4, hppos4, hi4⟩ :=
        readBytes_exact sC (pre ++ beBytes 2 e.relPath.length ++ e.relPath
            ++ beBytes 8 e.content.length)
          (beBytes 8 (encBytes enc e.content).length)
          (tableBytes enc es ++ post) 8 hi3
          (by rw [hd3, hd2, hd1, hdata1]; simp [List.append_assoc])
          (by rw [hppos3, hppos2, hppos1, hpos]; simp [beBytes_length]; omega)
          (beBytes_length 8 (encBytes enc e.content).length).symm
      obtain ⟨sE, hrE, hdE, hpE, hiE⟩ :=
        ih sD (pre ++ recordBytes enc e) post hi4
          (by rw [hd4, hd3, hd2, hd1, hdata1]
              simp [recordBytes, entryRecord, List.append_assoc])
          (by rw [hppos4, hppos3, hppos2, hppos1, hpos]
              simp [recordBytes, entryRecord, beBytes_length, List.length_append]
              omega)
          (fun x hx => hrel x (by simp [hx]))
          (fun x hx => horig x (by simp [hx]))
          (fun x hx => hcomp x (by simp [hx]))
      have hbv2 : beVal (beBytes 8 e.content.length) = e.content.length :=
        beVal_beBytes_of_lt horig1
      have hbv3 : beVal (beBytes 8 (encBytes enc e.content).length)
          = (encBytes enc e.content).length :=
        beVal_beBytes_of_lt hcomp1
      refine ⟨sE, ?_, ?_, ?_, ?_⟩
      · simp only [List.length_cons, readEntries,
          rdFull_of_some "read relPathLen" hr1, except_bind_ok, hbv1,
          rdFull_of_some "read relPath" hr2,
          rdFull_of_some "read originalSize" hr3,
          rdFull_of_some "read compressedSize" hr4,
          hbv2, hbv3, hrE, List.map_cons]
        rfl
      · rw [hdE, hd4, hd3, hd2, hd1]
      · rw [hpE, hppos4, hppos3, hppos2, hppos1]
        simp [tableBytes, recordBytes, entryRecord, beBytes_length]
        omega
      · exact hiE

/-- Top-level output path decided by `readArchiveHeader`: a user-supplied
name wins; otherwise a directory archive defaults to the stored root
name, and a file archive to the current directory. -/
def outDirOf (archiveType : Nat) (rootName userOut : List Nat) : List Nat :=
  if userOut ≠ [] then userOut
  else if archiveType = archiveDirType then rootName
  else dotPath

theorem beVal_singleton (b : Nat) : beVal [b] = b := by
  simp [beVal]

theorem rawPos_sub_buffered (s : BufReader) (h : s.Inv) :
    s.rawPos - s.buffered = s.pos := by
  obtain ⟨h1, h2⟩ := h
  simp only [BufReader.buffered]
  omega

theorem readArchiveHeader_build (isDirFn : List Nat → Bool)
    (enc : List Nat → List Nat) (t : Nat) (rootName : List Nat)
    (entries : List Entry) (inputName userOut : List Nat)
    (ht : t < 256)
    (hroot : rootName.length < 2 ^ 16)
    (hnum : entries.length < 2 ^ 32)
    (hrel : ∀ e ∈ entries, e.relPath.length < 2 ^ 16)
    (horig : ∀ e ∈ entries, e.content.length < 2 ^ 64)
    (hcomp : ∀ e ∈ entries, (encBytes enc e.content).length < 2 ^ 64) :
    readArchiveHeader isDirFn (containerBytes enc t rootName entries)
        inputName userOut
      = .ok (entries.map (builtTask isDirFn enc t
            (outDirOf t rootName userOut) rootName inputName userOut),
          (headerBytes t rootName entries.length).length
            + (tableBytes enc entries).length,
          outDirOf t rootName userOut, t) := by
  have hmod : t % 256 = t := Nat.mod_eq_of_lt ht
  have hflat : containerBytes enc t rootName entries
      = magicBytes ++ ([versionByte] ++ ([t % 256] ++
          (beBytes 2 rootName.length ++ (rootName ++
            (beBytes 4 entries.length ++
              (tableBytes enc entries ++ payloadBytes enc entries)))))) := by
    simp [containerBytes, headerBytes, List.append_assoc]
  have hInv0 : (⟨containerBytes enc t rootName entries, 0, 0⟩ : BufReader).Inv :=
    ⟨Nat.le_refl 0, Nat.zero_le _⟩
  obtain ⟨s1, hr1, hd1, hp1, hi1⟩ :=
    readBytes_exact ⟨containerBytes enc t rootName entries, 0, 0⟩ []
      magicBytes ([versionByte] ++ ([t % 256] ++
          (beBytes 2 rootName.length ++ (rootName ++
            (beBytes 4 entries.length ++
              (tableBytes enc entries ++ payloadBytes enc entries)))))) 4
      hInv0 (by simp only [List.nil_append]; exact hflat) rfl rfl
  obtain ⟨s2, hr2, hd2, hp2, hi2⟩ :=
    readBytes_exact s1 magicBytes [versionByte] ([t % 256] ++
          (beBytes 2 rootName.length ++ (rootName ++
            (beBytes 4 entries.length ++
              (tableBytes enc entries ++ payloadBytes enc entries))))) 1
      hi1 (by rw [hd1]; exact hflat) (by simp [hp1, magicBytes]) rfl
  obtain ⟨s3, hr3, hd3, hp3, hi3⟩ :=
    readBytes_exact s2 (magicBytes ++ [versionByte]) [t % 256]
      (beBytes 2 rootName.length ++ (rootName ++
            (beBytes 4 entries.length ++
              (tableBytes enc entries ++ payloadBytes enc entries)))) 1
      hi2 (by rw [hd2, hd1, hflat]; simp [List.append_assoc])
      (by rw [hp2, hp1]; simp [magicBytes]) rfl
  obtain ⟨s4, hr4, hd4, hp4, hi4⟩ :=
    readBytes_exact s3 (magicBytes ++ [versionByte] ++ [t % 256])
      (beBytes 2 rootName.length)
      (rootName ++ (beBytes 4 entries.length ++
              (tableBytes enc entries ++ payloadBytes enc entries))) 2
      hi3 (by rw [hd3, hd2, hd1, hflat]; simp [List.append_assoc])
      (by rw [hp3, hp2, hp1]; simp [magicBytes])
      (beBytes_length 2 rootName.length).symm
  have hbvroot : beVal (beBytes 2 rootName.length) = rootName.length :=
    beVal_beBytes_of_lt hroot
  obtain ⟨s5, hr5, hd5, hp5, hi5⟩ :=
    readBytes_exact s4
      (magicBytes ++ [versionByte] ++ [t % 256] ++ beBytes 2 rootName.length)
      rootName
      (beBytes 4 entries.length ++
        (tableBytes enc entries ++ payloadBytes enc entries))
      rootName.length
      hi4 (by rw [hd4, hd3, hd2, hd1, hflat]; simp [List.append_assoc])
      (by rw [hp4, hp3, hp2, hp1]; simp [magicBytes, beBytes_length])
      rfl
  obtain ⟨s6, hr6, hd6, hp6, hi6⟩ :=
    readBytes_exact s5
      (magicBytes ++ [versionByte] ++ [t % 256] ++ beBytes 2 rootName.length
        ++ rootName)
      (beBytes 4 entries.length)
      (tableBytes enc entries ++ payloadBytes enc entries) 4
      hi5 (by rw [hd5, hd4, hd3, hd2, hd1, hflat]; simp [List.append_assoc])
      (by rw [hp5, hp4, hp3, hp2, hp1]; simp [magicBytes, beBytes_length]; omega)
      (beBytes_length 4 entries.length).symm
  have hbvnum : beVal (beBytes 4 entries.length) = entries.length :=
    beVal_beBytes_of_lt hnum
  obtain ⟨s7, hr7, hd7, hp7, hi7⟩ :=
    readEntries_exact isDirFn enc t
      (outDirOf t rootName userOut) rootName inputName userOut entries s6
      (magicBytes ++ [versionByte] ++ [t % 256] ++ beBytes 2 rootName.length
        ++ rootName ++ beBytes 4 entries.length)
      (payloadBytes enc entries)
      hi6 (by rw [hd6, hd5, hd4, hd3, hd2, hd1, hflat]
              simp [List.append_assoc])
      (by rw [hp6, hp5, hp4, hp3, hp2, hp1]
          simp [magicBytes, beBytes_length]
          omega)
      hrel horig hcomp
  have hbvt : beVal [t % 256] = t := by rw [beVal_singleton, hmod]
  have hso : s7.rawPos - s7.buffered
      = (headerBytes t rootName entries.length).length
        + (tableBytes enc entries).length := by
    rw [rawPos_sub_buffered s7 hi7, hp7, hp6, hp5, hp4, hp3, hp2, hp1]
    simp [headerBytes, magicBytes, beBytes_length]
    omega
  simp only [readArchiveHeader, rdFull_of_some "read magic" hr1,
    except_bind_ok]
  rw [if_neg (show ¬ (magicBytes ≠ magicBytes) by simp)]
  simp only [rdFull_of_some "read version" hr2, except_bind_ok]
  rw [if_neg (show ¬ (beVal [versionByte] ≠ versionByte) by simp [beVal_singleton])]
  simp only [rdFull_of_some "read archive type" hr3, except_bind_ok, hbvt,
    rdFull_of_some "read root name length" hr4, hbvroot,
    rdFull_of_some "read root name" hr5,
    rdFull_of_some "read num entries" hr6, hbvnum]
  simp only [outDirOf] at hr7 ⊢
  simp only [hr7, except_bind_ok]
  rw [hso]

/-- Offset accumulation loop at the top of `decompressFiles`:
`offsets[i] = currentOffset; currentOffset += compressedSize`. -/
def computeOffsets (startOffset : Nat) : List DecompressTask → List Nat
  | [] => []
  | t :: ts => startOffset :: computeOffsets (startOffset + t.compressedSize) ts

/-- Model of `io.NewSectionReader(f, offset, compressedSize)`: the bytes
of the byte range `[offset, offset + size)` of the container. -/
def sectionReader (data : List Nat) (off size : Nat) : List Nat :=
  (data.drop off).take size

/-- decompressFileStreaming from `pkg/core/decompress.go`, as a function
of the entry's compressed byte range: a zero-size entry produces an
empty file without touching the codec; otherwise the range is fed to the
decoder (`dec ... = none` models an lz4 read error) and exactly
`originalSize` bytes are copied (`io.CopyN`); a copy count different
from `originalSize` is an entry-level error.  The `ok` value is the byte
content written to the destination file. -/
def decompressFileStreaming (dec : List Nat → Option (List Nat))
    (sec : List Nat) (task : DecompressTask) : Except String (List Nat) :=
  if task.originalSize = 0 then .ok []
  else
    match dec sec with
    | none => .error "copy: decode error"
    | some d =>
      let copied := d.take task.originalSize
      if copied.length = task.originalSize then .ok copied
      else .error "copy: size mismatch"

/-- decompressFiles from `pkg/core/decompress.go`: compute each entry's
byte offset by accumulating compressed sizes from the payload start,
then run every task (the bounded worker pool is modelled sequentially:
every task runs to completion whatever its siblings do, and task order
stands in for the nondeterministic completion order).  The first
component lists every task with its outcome; the second is the value the
Go function returns: the first recorded error, or `none` when the error
channel is empty. -/
def decompressFiles (dec : List Nat → Option (List Nat))
    (archiveData : List Nat) (startOffset : Nat)
    (tasks : List DecompressTask) :
    List (DecompressTask × Except String (List Nat)) × Option String :=
  let offsets := computeOffsets startOffset tasks
  let results := (tasks.zip offsets).map
    (fun p => (p.1, decompressFileStreaming dec
      (sectionReader archiveData p.2 p.1.compressedSize) p.1))
  let errs := results.filterMap
    (fun r => match r.2 with | .error e => some e | .ok _ => none)
  (results, errs.head?)

/-- Decompress from `pkg/core/decompress.go`, success path of the
surrounding I/O: parse the header, then extract.  Propagates a header
error; otherwise returns the per-task outcomes and the scheduler's
error value. -/
def DecompressGo (isDirFn : List Nat → Bool)
    (dec : List Nat → Option (List Nat)) (archiveData : List Nat)
    (inputName userOut : List Nat) :
    Except String
      (List (DecompressTask × Except String (List Nat)) × Option String) :=
  match readArchiveHeader isDirFn archiveData inputName userOut with
  | .error e => .error e
  | .ok (tasks, startOffset, _, _) =>
    .ok (decompressFiles dec archiveData startOffset tasks)

theorem computeOffsets_length (startOffset : Nat) (tasks : List DecompressTask) :
    (computeOffsets startOffset tasks).length = tasks.length := by
  induction tasks generalizing startOffset with
  | nil => rfl
  | cons t ts ih => simp [computeOffsets, ih]

theorem computeOffsets_getD (tasks : List DecompressTask) :
    ∀ (startOffset i : Nat), i < tasks.length →
    (computeOffsets startOffset tasks).getD i 0
      = startOffset + ((tasks.take i).map
          (fun t => t.compressedSize)).sum := by
  induction tasks with
  | nil =>
      intro so i h
      simp at h
  | cons t ts ih =>
      intro so i h
      cases i with
      | zero => simp [computeOffsets]
      | succ i =>
          have hi : i < ts.length := by simp at h; omega
          simp only [computeOffsets, List.getD_cons_succ, List.take_succ_cons,
            List.map_cons, List.sum_cons]
          rw [ih (so + t.compressedSize) i hi]
          omega

theorem decompressFileStreaming_build (dec : List Nat → Option (List Nat))
    (enc : List Nat → List Nat)
    (hcodec : ∀ c, c ≠ [] → dec (enc c) = some c)
    (task : DecompressTask) (c : List Nat)
    (horig : task.originalSize = c.length) :
    decompressFileStreaming dec (encBytes enc c) task = .ok c := by
  by_cases hc : c = []
  · subst hc
    simp only [decompressFileStreaming, horig]
    rfl
  · have hne : c.length ≠ 0 := by
      intro hz
      exact hc (List.eq_nil_of_length_eq_zero hz)
    simp only [decompressFileStreaming, horig, if_neg hne, encBytes,
      if_neg hc, hcodec c hc]
    simp

theorem extract_zip_build (isDirFn : List Nat → Bool)
    (dec : List Nat → Option (List Nat)) (enc : List Nat → List Nat)
    (archiveType : Nat) (outputDir rootName inputName userOut : List Nat)
    (hcodec : ∀ c, c ≠ [] → dec (enc c) = some c) :
    ∀ (es : List Entry) (data : List Nat) (off : Nat) (rest : List Nat),
    data.drop off = payloadBytes enc es ++ rest →
    ((es.map (builtTask isDirFn enc archiveType outputDir rootName inputName
        userOut)).zip
      (computeOffsets off (es.map (builtTask isDirFn enc archiveType
        outputDir rootName inputName userOut)))).map
      (fun p => (p.1, decompressFileStreaming dec
        (sectionReader data p.2 p.1.compressedSize) p.1))
      = es.map (fun e => (builtTask isDirFn enc archiveType outputDir
          rootName inputName userOut e, Except.ok e.content)) := by
  intro es
  induction es with
  | nil =>
      intro data off rest _
      simp [computeOffsets]
  | cons e es ih =>
      intro data off rest hdrop
      have hpl : payloadBytes enc (e :: es)
          = encBytes enc e.content ++ payloadBytes enc es := by
        simp [payloadBytes]
      rw [hpl] at hdrop
      have hsec : sectionReader data off (encBytes enc e.content).length
          = encBytes enc e.content := by
        simp only [sectionReader, hdrop, List.append_assoc]
        rw [List.take_append_eq_append_take,
          List.take_of_length_le (le_refl _), Nat.sub_self, List.take_zero,
          List.append_nil]
      have hdrop2 : data.drop (off + (encBytes enc e.content).length)
          = payloadBytes enc es ++ rest := by
        rw [← List.drop_drop, hdrop, List.append_assoc]
        rw [List.drop_append_eq_append_drop,
          List.drop_eq_nil_of_le (le_refl _), Nat.sub_self, List.drop_zero,
          List.nil_append]
      simp only [List.map_cons, computeOffsets, List.zip_cons_cons]
      rw [show (builtTask isDirFn enc archiveType outputDir rootName
          inputName userOut e).compressedSize
          = (encBytes enc e.content).length from rfl]
      rw [hsec]
      rw [decompressFileStreaming_build dec enc hcodec
        (builtTask isDirFn enc archiveType outputDir rootName inputName
          userOut e) e.content rfl]
      rw [ih data (off + (encBytes enc e.content).length) rest hdrop2]

theorem filterMap_ok_nil (l : List Entry)
    (g : Entry → DecompressTask × Except String (List Nat))
    (h : ∀ e ∈ l, ∃ out, (g e).2 = Except.ok out) :
    (l.map g).filterMap
      (fun r => match r.2 with | .error e => some e | .ok _ => none)
      = [] := by
  induction l with
  | nil => rfl
  | cons e es ih =>
      obtain ⟨out, hout⟩ := h e (by simp)
      simp only [List.map_cons, List.filterMap_cons, hout]
      exact ih (fun x hx => h x (by simp [hx]))

theorem decompressFiles_build (isDirFn : List Nat → Bool)
    (dec : List Nat → Option (List Nat)) (enc : List Nat → List Nat)
    (archiveType : Nat) (outputDir rootName inputName userOut : List Nat)
    (hcodec : ∀ c, c ≠ [] → dec (enc c) = some c)
    (es : List Entry) (data : List Nat) (off : Nat) (rest : List Nat)
    (hdrop : data.drop off = payloadBytes enc es ++ rest) :
    decompressFiles dec data off
        (es.map (builtTask isDirFn enc archiveType outputDir rootName
          inputName userOut))
      = (es.map (fun e => (builtTask isDirFn enc archiveType outputDir
          rootName inputName userOut e, Except.ok e.content)), none) := by
  simp only [decompressFiles]
  rw [extract_zip_build isDirFn dec enc archiveType outputDir rootName
    inputName userOut hcodec es data off rest hdrop]
  rw [filterMap_ok_nil es _ (fun e he => ⟨e.content, rfl⟩)]
  rfl

theorem decompressGo_build (isDirFn : List Nat → Bool)
    (dec : List Nat → Option (List Nat)) (enc : List Nat → List Nat)
    (t : Nat) (rootName : List Nat) (entries : List Entry)
    (inputName userOut : List Nat)
    (ht : t < 256)
    (hcodec : ∀ c, c ≠ [] → dec (enc c) = some c)
    (hroot : rootName.length < 2 ^ 16)
    (hnum : entries.length < 2 ^ 32)
    (hrel : ∀ e ∈ entries, e.relPath.length < 2 ^ 16)
    (horig : ∀ e ∈ entries, e.content.length < 2 ^ 64)
    (hcomp : ∀ e ∈ entries, (encBytes enc e.content).length < 2 ^ 64) :
    DecompressGo isDirFn dec
        (compressFiles enc entries t rootName).data inputName userOut
      = .ok (entries.map (fun e =>
          (builtTask isDirFn enc t (outDirOf t rootName userOut) rootName
            inputName userOut e, Except.ok e.content)), none) := by
  have hdata : (compressFiles enc entries t rootName).data
      = containerBytes enc t rootName entries := by
    rw [compressFiles_data]
  rw [hdata]
  simp only [DecompressGo,
    readArchiveHeader_build isDirFn enc t rootName entries inputName
      userOut ht hroot hnum hrel horig hcomp]
  have hdrop : (containerBytes enc t rootName entries).drop
      ((headerBytes t rootName entries.length).length
        + (tableBytes enc entries).length)
      = payloadBytes enc entries ++ [] := by
    simp only [containerBytes, List.append_assoc, List.append_nil]
    rw [← List.length_append]
    rw [← List.append_assoc]
    rw [List.drop_append_eq_append_drop,
      List.drop_eq_nil_of_le (le_refl _), Nat.sub_self, List.drop_zero,
      List.nil_append]
  rw [decompressFiles_build isDirFn dec enc t (outDirOf t rootName userOut)
    rootName inputName userOut hcodec entries
    (containerBytes enc t rootName entries)
    ((headerBytes t rootName entries.length).length
      + (tableBytes enc entries).length) [] hdrop]

theorem readEntries_some (isDirFn : List Nat → Bool) (archiveType : Nat)
    (outputDir rootName inputName userOut : List Nat) :
    ∀ (n : Nat) (s : BufReader) (tasks : List DecompressTask)
      (s2 : BufReader), s.Inv →
    readEntries isDirFn archiveType outputDir rootName inputName userOut n s
      = .ok (tasks, s2) →
    s2.data = s.data ∧
      s2.pos = s.pos + (tasks.map (fun tk => 18 + tk.relPath.length)).sum ∧
      s2.Inv ∧ tasks.length = n := by
  intro n
  induction n with
  | zero =>
      intro s tasks s2 hInv h
      simp only [readEntries, Except.ok.injEq, Prod.mk.injEq] at h
      obtain ⟨ht, hs⟩ := h
      subst ht
      subst hs
      exact ⟨rfl, by simp, hInv, rfl⟩
  | succ n ih =>
      intro s tasks s2 hInv h
      cases h1 : readBytes 2 s with
      | none =>
          simp only [readEntries, rdFull_of_none "read relPathLen" h1,
            except_bind_err] at h
          exact absurd h (by simp)
      | some r1 =>
          obtain ⟨lenBs, sA⟩ := r1
          obtain ⟨hle1, hbs1, hlen1, hd1, hp1, hi1⟩ :=
            readBytes_some 2 s lenBs sA hInv h1
          cases h2 : readBytes (beVal lenBs) sA with
          | none =>
              simp only [readEntries, rdFull_of_some "read relPathLen" h1,
                except_bind_ok, rdFull_of_none "read relPath" h2,
                except_bind_err] at h
              exact absurd h (by simp)
          | some r2 =>
              obtain ⟨relPath, sB⟩ := r2
              obtain ⟨hle2, hbs2, hlen2, hd2, hp2, hi2⟩ :=
                readBytes_some (beVal lenBs) sA relPath sB hi1 h2
              cases h3 : readBytes 8 sB with
              | none =>
                  simp only [readEntries, rdFull_of_some "read relPathLen" h1,
                    except_bind_ok, rdFull_of_some "read relPath" h2,
                    rdFull_of_none "read originalSize" h3,
                    except_bind_err] at h
                  exact absurd h (by simp)
              | some r3 =>
                  obtain ⟨origBs, sC⟩ := r3
                  obtain ⟨hle3, hbs3, hlen3, hd3, hp3, hi3⟩ :=
                    readBytes_some 8 sB origBs sC hi2 h3
                  cases h4 : readBytes 8 sC with
                  | none =>
                      simp only [readEntries,
                        rdFull_of_some "read relPathLen" h1, except_bind_ok,
                        rdFull_of_some "read relPath" h2,
                        rdFull_of_some "read originalSize" h3,
                        rdFull_of_none "read compressedSize" h4,
                        except_bind_err] at h
                      exact absurd h (by simp)
                  | some r4 =>
                      obtain ⟨compBs, sD⟩ := r4
                      obtain ⟨hle4, hbs4, hlen4, hd4, hp4, hi4⟩ :=
                        readBytes_some 8 sC compBs sD hi3 h4
                      cases h5 : readEntries isDirFn archiveType outputDir
                          rootName inputName userOut n sD with
                      | error e =>
                          simp only [readEntries,
                            rdFull_of_some "read relPathLen" h1,
                            except_bind_ok,
                            rdFull_of_some "read relPath" h2,
                            rdFull_of_some "read originalSize" h3,
                            rdFull_of_some "read compressedSize" h4, h5,
                            except_bind_err] at h
                          exact absurd h (by simp)
                      | ok r5 =>
                          obtain ⟨rest, sE⟩ := r5
                          obtain ⟨hd5, hp5, hi5, hlen5⟩ :=
                            ih sD rest sE hi4 h5
                          simp only [readEntries,
                            rdFull_of_some "read relPathLen" h1,
                            except_bind_ok,
                            rdFull_of_some "read relPath" h2,
                            rdFull_of_some "read originalSize" h3,
                            rdFull_of_some "read compressedSize" h4, h5,
                            Except.ok.injEq, Prod.mk.injEq] at h
                          obtain ⟨htasks, hs2⟩ := h
                          subst hs2
                          subst htasks
                          refine ⟨?_, ?_, hi5, by simp [hlen5]⟩
                          · rw [hd5, hd4, hd3, hd2, hd1]
                          · rw [hp5, hp4, hp3, hp2, hp1]
                            simp only [List.map_cons, List.sum_cons]
                            rw [hlen2]
                            omega

/-- Byte length of Header plus EntryTable as recoverable from the raw
container bytes and the parsed tasks: 12 fixed header bytes plus the
root-name length stored at bytes 6..8, plus 18 bytes of fixed record
fields and the relative-path bytes per entry. -/
def headerTableLength (data : List Nat) (tasks : List DecompressTask) : Nat :=
  12 + beVal ((data.drop 6).take 2)
    + (tasks.map (fun tk => 18 + tk.relPath.length)).sum

theorem take_one_drop (l : List Nat) (p : Nat) (h : p < l.length) :
    (l.drop p).take 1 = [l.getD p 0] := by
  rw [show (1 : Nat) = 0 + 1 from rfl, drop_take_succ_getD l p 0 h]
  simp

/-- C3: Payload-start correction.  For every container the buffered
parser accepts, the payload start offset it returns — computed in
`readArchiveHeader` as the raw file position minus `br.Buffered()` —
equals the exact byte length of Header plus EntryTable: 12 fixed header
bytes, plus the root-name length stored big-endian at bytes 6..8, plus
18 fixed bytes and the relative-path bytes for each parsed task. -/
theorem C3_payload_start (isDirFn : List Nat → Bool)
    (data inputName userOut : List Nat) (tasks : List DecompressTask)
    (startOffset : Nat) (outDir : List Nat) (t : Nat)
    (h : readArchiveHeader isDirFn data inputName userOut
      = .ok (tasks, startOffset, outDir, t)) :
    startOffset = headerTableLength data tasks := by
  cases h1 : readBytes 4 (⟨data, 0, 0⟩ : BufReader) with
  | none =>
      simp only [readArchiveHeader, rdFull_of_none "read magic" h1,
        except_bind_err] at h
      exact absurd h (by simp)
  | some r1 =>
      obtain ⟨magicBs, s1⟩ := r1
      have hInv0 : (⟨data, 0, 0⟩ : BufReader).Inv :=
        ⟨Nat.le_refl 0, Nat.zero_le _⟩
      obtain ⟨hle1, hbs1, hlen1, hd1, hp1, hi1⟩ :=
        readBytes_some 4 _ magicBs s1 hInv0 h1
      by_cases hm : magicBs ≠ magicBytes
      · simp only [readArchiveHeader, rdFull_of_some "read magic" h1,
          except_bind_ok, if_pos hm] at h
        exact absurd h (by simp)
      cases h2 : readBytes 1 s1 with
      | none =>
          simp only [readArchiveHeader, rdFull_of_some "read magic" h1,
            except_bind_ok, if_neg hm, rdFull_of_none "read version" h2,
            except_bind_err] at h
          exact absurd h (by simp)
      | some r2 =>
      obtain ⟨verBs, s2⟩ := r2
      obtain ⟨hle2, hbs2, hlen2, hd2, hp2, hi2⟩ :=
        readBytes_some 1 s1 verBs s2 hi1 h2
      by_cases hv : beVal verBs ≠ versionByte
      · simp only [readArchiveHeader, rdFull_of_some "read magic" h1,
          except_bind_ok, if_neg hm, rdFull_of_some "read version" h2,
          if_pos hv] at h
        exact absurd h (by simp)
      cases h3 : readBytes 1 s2 with
      | none =>
          simp only [readArchiveHeader, rdFull_of_some "read magic" h1,
            except_bind_ok, if_neg hm, rdFull_of_some "read version" h2,
            if_neg hv, rdFull_of_none "read archive type" h3,
            except_bind_err] at h
          exact absurd h (by simp)
      | some r3 =>
      obtain ⟨typeBs, s3⟩ := r3
      obtain ⟨hle3, hbs3, hlen3, hd3, hp3, hi3⟩ :=
        readBytes_some 1 s2 typeBs s3 hi2 h3
      cases h4 : readBytes 2 s3 with
      | none =>
          simp only [readArchiveHeader, rdFull_of_some "read magic" h1,
            except_bind_ok, if_neg hm, rdFull_of_some "read version" h2,
            if_neg hv, rdFull_of_some "read archive type" h3,
            rdFull_of_none "read root name length" h4, except_bind_err] at h
          exact absurd h (by simp)
      | some r4 =>
      obtain ⟨rootLenBs, s4⟩ := r4
      obtain ⟨hle4, hbs4, hlen4, hd4, hp4, hi4⟩ :=
        readBytes_some 2 s3 rootLenBs s4 hi3 h4
      cases h5 : readBytes (beVal rootLenBs) s4 with
      | none =>
          simp only [readArchiveHeader, rdFull_of_some "read magic" h1,
            except_bind_ok, if_neg hm, rdFull_of_some "read version" h2,
            if_neg hv, rdFull_of_some "read archive type" h3,
            rdFull_of_some "read root name length" h4,
            rdFull_of_none "read root name" h5, except_bind_err] at h
          exact absurd h (by simp)
      | some r5 =>
      obtain ⟨rootNameBs, s5⟩ := r5
      obtain ⟨hle5, hbs5, hlen5, hd5, hp5, hi5⟩ :=
        readBytes_some (beVal rootLenBs) s4 rootNameBs s5 hi4 h5
      cases h6 : readBytes 4 s5 with
      | none =>
          simp only [readArchiveHeader, rdFull_of_some "read magic" h1,
            except_bind_ok, if_neg hm, rdFull_of_some "read version" h2,
            if_neg hv, rdFull_of_some "read archive type" h3,
            rdFull_of_some "read root name length" h4,
            rdFull_of_some "read root name" h5,
            rdFull_of_none "read num entries" h6, except_bind_err] at h
          exact absurd h (by simp)
      | some r6 =>
      obtain ⟨numBs, s6⟩ := r6
      obtain ⟨hle6, hbs6, hlen6, hd6, hp6, hi6⟩ :=
        readBytes_some 4 s5 numBs s6 hi5 h6
      cases h7 : readEntries isDirFn (beVal typeBs)
          (if userOut ≠ [] then userOut
           else if beVal typeBs = archiveDirType then rootNameBs else dotPath)
          rootNameBs inputName userOut (beVal numBs) s6 with
      | error e =>
          simp only [readArchiveHeader, rdFull_of_some "read magic" h1,
            except_bind_ok, if_neg hm, rdFull_of_some "read version" h2,
            if_neg hv, rdFull_of_some "read archive type" h3,
            rdFull_of_some "read root name length" h4,
            rdFull_of_some "read root name" h5,
            rdFull_of_some "read num entries" h6, h7, except_bind_err] at h
          exact absurd h (by simp)
      | ok r7 =>
      obtain ⟨taskList, s7⟩ := r7
      obtain ⟨hd7, hp7, hi7, hlen7⟩ :=
        readEntries_some isDirFn (beVal typeBs)
          (if userOut ≠ [] then userOut
           else if beVal typeBs = archiveDirType then rootNameBs else dotPath)
          rootNameBs inputName userOut (beVal numBs) s6 taskList s7 hi6 h7
      simp only [readArchiveHeader, rdFull_of_some "read magic" h1,
        except_bind_ok, if_neg hm, rdFull_of_some "read version" h2,
        if_neg hv, rdFull_of_some "read archive type" h3,
        rdFull_of_some "read root name length" h4,
        rdFull_of_some "read root name" h5,
        rdFull_of_some "read num entries" h6, h7,
        Except.ok.injEq, Prod.mk.injEq] at h
      obtain ⟨htasks, hoff, _⟩ := h
      subst htasks
      rw [← hoff, rawPos_sub_buffered s7 hi7]
      have hroot2 : rootLenBs = (data.drop 6).take 2 := by
        rw [hbs4, hd3, hd2, hd1, hp3, hp2, hp1]
      rw [hp7, hp6, hp5, hp4, hp3, hp2, hp1, hroot2]
      simp only [headerTableLength]
      simp
      omega

/-- C4: Header validation.  Any input whose first four bytes differ from
the magic constant, or whose fifth byte is not version 1, is rejected by
`readArchiveHeader` with an error — no task list or partial parse result
is produced. -/
theorem C4_header_validation (isDirFn : List Nat → Bool)
    (data inputName userOut : List Nat)
    (h : data.take 4 ≠ magicBytes ∨ data.getD 4 0 ≠ versionByte) :
    ∃ msg, readArchiveHeader isDirFn data inputName userOut
      = .error msg := by
  cases h1 : readBytes 4 (⟨data, 0, 0⟩ : BufReader) with
  | none =>
      exact ⟨"read magic", by
        simp only [readArchiveHeader, rdFull_of_none "read magic" h1,
          except_bind_err]⟩
  | some r1 =>
      obtain ⟨magicBs, s1⟩ := r1
      have hInv0 : (⟨data, 0, 0⟩ : BufReader).Inv :=
        ⟨Nat.le_refl 0, Nat.zero_le _⟩
      obtain ⟨hle1, hbs1, hlen1, hd1, hp1, hi1⟩ :=
        readBytes_some 4 _ magicBs s1 hInv0 h1
      have hmagic : magicBs = data.take 4 := by
        rw [hbs1]
        simp
      by_cases hm : magicBs ≠ magicBytes
      · exact ⟨"invalid magic number", by
          simp only [readArchiveHeader, rdFull_of_some "read magic" h1,
            except_bind_ok, if_pos hm]⟩
      · have hmagic_eq : data.take 4 = magicBytes := by
          rw [← hmagic]
          exact not_not.mp hm
        have hver : data.getD 4 0 ≠ versionByte := by
          cases h with
          | inl hl => exact absurd hmagic_eq hl
          | inr hr => exact hr
        cases h2 : readBytes 1 s1 with
        | none =>
            exact ⟨"read version", by
              simp only [readArchiveHeader, rdFull_of_some "read magic" h1,
                except_bind_ok, if_neg hm,
                rdFull_of_none "read version" h2, except_bind_err]⟩
        | some r2 =>
            obtain ⟨verBs, s2⟩ := r2
            obtain ⟨hle2, hbs2, hlen2, hd2, hp2, hi2⟩ :=
              readBytes_some 1 s1 verBs s2 hi1 h2
            have h4lt : 4 < data.length := by
              have hx := hle2
              rw [hp1, hd1] at hx
              simp at hx
              omega
            have hvval : beVal verBs = data.getD 4 0 := by
              rw [hbs2, hd1, hp1]
              simp [take_one_drop data 4 h4lt, beVal_singleton]
            have hvne : beVal verBs ≠ versionByte := by
              rw [hvval]
              exact hver
            exact ⟨"unsupported version", by
              simp only [readArchiveHeader, rdFull_of_some "read magic" h1,
                except_bind_ok, if_neg hm,
                rdFull_of_some "read version" h2, if_pos hvne]⟩

/-! Claim theorems. -/

/-- C1: Round-trip.  Building a directory tree `entries` (one entry per
file: relative path and content) and then restoring the resulting
container with the same codec parses successfully and produces, for
every entry, a task carrying its exact relative path, its exact original
byte length and a successfully written file with its exact byte content;
and permuting the enumeration order of the entries restores a
permutation of the same (task, content) pairs, so the resulting file set
is unaffected.  Hypotheses: the codec decodes its own output, and the
name/size fields fit their wire widths. -/
theorem C1_roundtrip (isDirFn : List Nat → Bool)
    (enc : List Nat → List Nat) (dec : List Nat → Option (List Nat))
    (entries : List Entry) (rootName inputName userOut : List Nat)
    (hcodec : ∀ c, c ≠ [] → dec (enc c) = some c)
    (hroot : rootName.length < 2 ^ 16)
    (hnum : entries.length < 2 ^ 32)
    (hrel : ∀ e ∈ entries, e.relPath.length < 2 ^ 16)
    (horig : ∀ e ∈ entries, e.content.length < 2 ^ 64)
    (hcomp : ∀ e ∈ entries, (encBytes enc e.content).length < 2 ^ 64) :
    DecompressGo isDirFn dec
        (compressFiles enc entries archiveDirType rootName).data
        inputName userOut
      = .ok (entries.map (fun e =>
          (builtTask isDirFn enc archiveDirType
            (outDirOf archiveDirType rootName userOut) rootName inputName
            userOut e, Except.ok e.content)), none)
    ∧ ∀ entries2 : List Entry, entries2.Perm entries →
        DecompressGo isDirFn dec
            (compressFiles enc entries2 archiveDirType rootName).data
            inputName userOut
          = .ok (entries2.map (fun e =>
              (builtTask isDirFn enc archiveDirType
                (outDirOf archiveDirType rootName userOut) rootName
                inputName userOut e, Except.ok e.content)), none)
        ∧ (entries2.map (fun e =>
              (builtTask isDirFn enc archiveDirType
                (outDirOf archiveDirType rootName userOut) rootName
                inputName userOut e,
               (Except.ok e.content : Except String (List Nat))))).Perm
            (entries.map (fun e =>
              (builtTask isDirFn enc archiveDirType
                (outDirOf archiveDirType rootName userOut) rootName
                inputName userOut e,
               (Except.ok e.content : Except String (List Nat))))) := by
  have key : ∀ es : List Entry, es.length < 2 ^ 32 →
      (∀ e ∈ es, e.relPath.length < 2 ^ 16) →
      (∀ e ∈ es, e.content.length < 2 ^ 64) →
      (∀ e ∈ es, (encBytes enc e.content).length < 2 ^ 64) →
      DecompressGo isDirFn dec
          (compressFiles enc es archiveDirType rootName).data
          inputName userOut
        = .ok (es.map (fun e =>
            (builtTask isDirFn enc archiveDirType
              (outDirOf archiveDirType rootName userOut) rootName inputName
              userOut e, Except.ok e.content)), none) :=
    fun es h1 h2 h3 h4 =>
      decompressGo_build isDirFn dec enc archiveDirType rootName es
        inputName userOut (by decide) hcodec hroot h1 h2 h3 h4
  refine ⟨key entries hnum hrel horig hcomp, fun es2 hperm => ⟨?_, ?_⟩⟩
  · refine key es2 ?_ ?_ ?_ ?_
    · rw [hperm.length_eq]
      exact hnum
    · exact fun e he => hrel e (hperm.mem_iff.mp he)
    · exact fun e he => horig e (hperm.mem_iff.mp he)
    · exact fun e he => hcomp e (hperm.mem_iff.mp he)
  · exact hperm.map _

theorem C1_roundtrip_witness :
    DecompressGo (fun _ => false) some
        (compressFiles id [⟨[97], [10, 20]⟩, ⟨[98], []⟩] archiveDirType
          [114]).data [105] []
      = .ok ([⟨[97], [10, 20]⟩, ⟨[98], []⟩].map (fun e =>
          (builtTask (fun _ => false) id archiveDirType
            (outDirOf archiveDirType [114] []) [114] [105] [] e,
           Except.ok e.content)), none) :=
  (C1_roundtrip (fun _ => false) id some [⟨[97], [10, 20]⟩, ⟨[98], []⟩]
    [114] [105] [] (fun c _ => rfl) (by decide) (by decide) (by decide)
    (by decide) (by decide)).1

/-- C2: Offset invariant.  For every task list and index `i`, the byte
offset assigned by `decompressFiles` to task `i` (via `computeOffsets`)
equals the payload start offset plus the sum of the compressed sizes of
all preceding tasks in table order, i.e. the compressed runs tile the
payload region contiguously with no per-entry padding. -/
theorem C2_offset_invariant (startOffset : Nat)
    (tasks : List DecompressTask) (i : Nat) (h : i < tasks.length) :
    (computeOffsets startOffset tasks).getD i 0
      = startOffset
        + ((tasks.take i).map (fun tk => tk.compressedSize)).sum :=
  computeOffsets_getD tasks startOffset i h

theorem C2_offset_invariant_witness :
    (computeOffsets 100 [⟨[], 1, 5, []⟩, ⟨[], 2, 7, []⟩]).getD 1 0
      = 100 + ((([⟨[], 1, 5, []⟩, ⟨[], 2, 7, []⟩]
          : List DecompressTask).take 1).map
            (fun tk => tk.compressedSize)).sum :=
  C2_offset_invariant 100 [⟨[], 1, 5, []⟩, ⟨[], 2, 7, []⟩] 1 (by decide)

theorem C3_payload_start_witness :
    13 = headerTableLength
      [65, 71, 67, 80, 1, 0, 0, 1, 114, 0, 0, 0, 0] [] :=
  C3_payload_start (fun _ => false)
    [65, 71, 67, 80, 1, 0, 0, 1, 114, 0, 0, 0, 0] [105] [] [] 13 dotPath 0
    (by rfl)

theorem C4_header_validation_witness :
    ∃ msg, readArchiveHeader (fun _ => false) [0, 0, 0, 0, 1] [] []
      = .error msg :=
  C4_header_validation (fun _ => false) [0, 0, 0, 0, 1] [] []
    (Or.inl (by decide))

/-- Destination table of specification section 4.4, written from the
spec's words, one case per (archive kind, user target given?, stored
relative path) row; used only to compare against the code's
`determineDestPath` composed with the parser's output-dir choice. -/
def specDestTable (isDirFn : List Nat → Bool) (archiveType : Nat)
    (userTarget relPath rootName inputPath : List Nat) : List Nat :=
  if archiveType = archiveDirType then
    if userTarget ≠ [] then pjoin userTarget relPath
    else pjoin rootName relPath
  else
    if userTarget ≠ [] then
      if isDirFn userTarget then
        if relPath = [] then pjoin userTarget rootName
        else pjoin userTarget relPath
      else if relPath ≠ [] then pjoin userTarget relPath
      else userTarget
    else
      if relPath ≠ [] then pjoin dotPath relPath
      else pjoin dotPath
        (if rootName ≠ [] then rootName else fallbackName inputPath)

/-- C5: Destination Resolver.  For both reachable archive kinds and
every combination of user target, stored relative path and stored root
name, the destination resolved by the code (`determineDestPath` applied
to the base output dir chosen by the parser) equals the value given by
the section 4.4 table (`specDestTable`); in particular a Directory
archive with no user target resolves to `join(storedRootName, relPath)`
and a SingleFile archive whose user target is not an existing directory
and whose stored relative path is empty resolves to the user target
itself. -/
theorem C5_dest_resolver (isDirFn : List Nat → Bool) (t : Nat)
    (userOut relPath rootName inputName : List Nat)
    (h : t = archiveFileType ∨ t = archiveDirType) :
    determineDestPath isDirFn t (outDirOf t rootName userOut) relPath
        rootName inputName userOut
      = specDestTable isDirFn t userOut relPath rootName inputName := by
  cases h with
  | inl h0 =>
      subst h0
      simp only [determineDestPath, specDestTable, outDirOf,
        archiveFileType, archiveDirType]
      norm_num
      split_ifs <;> simp_all
  | inr h1 =>
      subst h1
      simp only [determineDestPath, specDestTable, outDirOf,
        archiveFileType, archiveDirType]
      norm_num
      split_ifs <;> simp_all

theorem C5_dest_resolver_witness :
    determineDestPath (fun _ => false) archiveFileType
        (outDirOf archiveFileType [114] [117]) [] [114] [105] [117]
      = specDestTable (fun _ => false) archiveFileType [117] [] [114]
          [105] :=
  C5_dest_resolver (fun _ => false) archiveFileType [117] [] [114] [105]
    (Or.inl rfl)

/-- C6: Zero-length entry.  A zero-length source invokes no codec and
appends no payload bytes (`compressFileStreaming` returns `(0, f)`
unchanged for every codec `enc`), its backfilled record stores original
size 0 and compressed size 0, and on restore a zero-original-size task
produces an empty destination file without touching the decoder. -/
theorem C6_zero_length (enc : List Nat → List Nat)
    (dec : List Nat → Option (List Nat)) (f : WFile) (rp sec : List Nat)
    (task : DecompressTask) (h0 : task.originalSize = 0) :
    compressFileStreaming enc [] f = (0, f)
    ∧ encBytes enc [] = []
    ∧ recordBytes enc ⟨rp, []⟩ = entryRecord rp 0 0
    ∧ decompressFileStreaming dec sec task = .ok [] := by
  refine ⟨rfl, rfl, rfl, ?_⟩
  simp [decompressFileStreaming, h0]

theorem C6_zero_length_witness :
    compressFileStreaming id [] ⟨[1, 2], 2⟩ = (0, ⟨[1, 2], 2⟩)
    ∧ encBytes id [] = []
    ∧ recordBytes id ⟨[7], []⟩ = entryRecord [7] 0 0
    ∧ decompressFileStreaming (fun _ => none) [9, 9]
        ⟨[101], 0, 2, [100]⟩ = .ok [] :=
  C6_zero_length id (fun _ => none) ⟨[1, 2], 2⟩ [7] [9, 9]
    ⟨[101], 0, 2, [100]⟩ rfl

/-- C7: Extraction integrity check.  For a task with non-zero original
size, `decompressFileStreaming` succeeds exactly when the decoder
applied to the entry's compressed byte range yields a stream from which
the copy produces exactly `originalSize` bytes; a premature end of the
decoded stream, and a decoder failure, each yield an entry-level
error. -/
theorem C7_integrity (dec : List Nat → Option (List Nat)) (sec : List Nat)
    (task : DecompressTask) (h : task.originalSize ≠ 0) :
    ((∃ out, decompressFileStreaming dec sec task = .ok out)
      ↔ ∃ d, dec sec = some d ∧
          (d.take task.originalSize).length = task.originalSize)
    ∧ (∀ d, dec sec = some d → d.length < task.originalSize →
        decompressFileStreaming dec sec task
          = .error "copy: size mismatch")
    ∧ (dec sec = none →
        decompressFileStreaming dec sec task
          = .error "copy: decode error") := by
  refine ⟨⟨?_, ?_⟩, ?_, ?_⟩
  · rintro ⟨out, hout⟩
    cases hd : dec sec with
    | none =>
        simp only [decompressFileStreaming, if_neg h, hd] at hout
        exact absurd hout (by simp)
    | some d =>
        simp only [decompressFileStreaming, if_neg h, hd] at hout
        by_cases hlen : (d.take task.originalSize).length
            = task.originalSize
        · exact ⟨d, rfl, hlen⟩
        · rw [if_neg hlen] at hout
          exact absurd hout (by simp)
  · rintro ⟨d, hd, hlen⟩
    refine ⟨d.take task.originalSize, ?_⟩
    simp only [decompressFileStreaming, if_neg h, hd, if_pos hlen]
  · intro d hd hlen
    have hne : (d.take task.originalSize).length ≠ task.originalSize := by
      simp only [List.length_take]
      omega
    simp only [decompressFileStreaming, if_neg h, hd, if_neg hne]
  · intro hd
    simp only [decompressFileStreaming, if_neg h, hd]

theorem C7_integrity_witness :
    ((∃ out, decompressFileStreaming (fun _ => some [1, 2])
        [9] ⟨[], 3, 1, []⟩ = .ok out)
      ↔ ∃ d, (fun (_ : List Nat) => some [1, 2]) [9] = some d ∧
          (d.take 3).length = 3)
    ∧ (∀ d, (fun (_ : List Nat) => some [1, 2]) [9] = some d →
        d.length < 3 →
        decompressFileStreaming (fun _ => some [1, 2]) [9] ⟨[], 3, 1, []⟩
          = .error "copy: size mismatch")
    ∧ ((fun (_ : List Nat) => some [1, 2]) [9] = none →
        decompressFileStreaming (fun _ => some [1, 2]) [9] ⟨[], 3, 1, []⟩
          = .error "copy: decode error") :=
  C7_integrity (fun _ => some [1, 2]) [9] ⟨[], 3, 1, []⟩ (by decide)

/-- C8: Non-fail-fast aggregation.  The extraction scheduler
(`decompressFiles`, with the worker pool modelled sequentially) attempts
every task — the outcome list has one entry per task — returns `none`
exactly when every task succeeded, and when it reports an error that
error is one actually recorded by some task. -/
theorem C8_non_fail_fast (dec : List Nat → Option (List Nat))
    (archiveData : List Nat) (startOffset : Nat)
    (tasks : List DecompressTask) :
    ((decompressFiles dec archiveData startOffset tasks).1).length
        = tasks.length
    ∧ ((decompressFiles dec archiveData startOffset tasks).2 = none
        ↔ ∀ r ∈ (decompressFiles dec archiveData startOffset tasks).1,
            ∃ out, r.2 = Except.ok out)
    ∧ ∀ msg,
        (decompressFiles dec archiveData startOffset tasks).2 = some msg
        → ∃ r ∈ (decompressFiles dec archiveData startOffset tasks).1,
            r.2 = Except.error msg := by
  have hmatch : ∀ x : Except String (List Nat),
      (match x with | .error e => some e | .ok _ => none)
        = (none : Option String) ↔ ∃ out, x = .ok out := by
    intro x
    cases x <;> simp
  have hmatch2 : ∀ (x : Except String (List Nat)) (msg : String),
      (match x with | .error e => some e | .ok _ => none) = some msg
        → x = .error msg := by
    intro x msg hx
    cases x <;> simp_all
  refine ⟨?_, ?_, ?_⟩
  · simp [decompressFiles, computeOffsets_length]
  · simp only [decompressFiles]
    rw [List.head?_eq_none_iff, List.filterMap_eq_nil_iff]
    constructor
    · intro hall r hr
      exact (hmatch r.2).mp (hall r hr)
    · intro hall r hr
      exact (hmatch r.2).mpr (hall r hr)
  · intro msg hmsg
    simp only [decompressFiles] at hmsg
    have hmem : msg ∈ ((tasks.zip
        (computeOffsets startOffset tasks)).map
          (fun p => (p.1, decompressFileStreaming dec
            (sectionReader archiveData p.2 p.1.compressedSize)
            p.1))).filterMap
        (fun r => match r.2 with | .error e => some e | .ok _ => none) := by
      cases herrs : ((tasks.zip (computeOffsets startOffset tasks)).map
          (fun p => (p.1, decompressFileStreaming dec
            (sectionReader archiveData p.2 p.1.compressedSize)
            p.1))).filterMap
          (fun r => match r.2 with
            | .error e => some e | .ok _ => none) with
      | nil => rw [herrs] at hmsg; exact absurd hmsg (by simp)
      | cons a l =>
          rw [herrs] at hmsg
          simp only [List.head?_cons, Option.some.injEq] at hmsg
          rw [← hmsg]
          exact List.mem_cons_self a l
    rw [List.mem_filterMap] at hmem
    obtain ⟨r, hr, hfr⟩ := hmem
    exact ⟨r, hr, hmatch2 r.2 msg hfr⟩

theorem C8_non_fail_fast_witness :
    ∃ r ∈ (decompressFiles (fun _ => none) [0] 0
        [⟨[], 1, 1, []⟩]).1, r.2 = Except.error "copy: decode error" :=
  (C8_non_fail_fast (fun _ => none) [0] 0 [⟨[], 1, 1, []⟩]).2.2
    "copy: decode error" rfl

/-- C9 counterexample: the Go `Compress` returns only an `error` (`nil`
on success) and never a byte total; two builds whose entry lists have
different original totals hand the caller the identical return value, so
the return value cannot be the total number of original bytes. -/
theorem C9_counterexample :
    (CompressGo id [⟨[97], [1, 2, 3]⟩] archiveFileType [114]).2.2
        = (CompressGo id [⟨[97], []⟩] archiveFileType [114]).2.2
    ∧ calculateTotalSize [⟨[97], [1, 2, 3]⟩]
        ≠ calculateTotalSize [⟨[97], []⟩] :=
  ⟨rfl, by decide⟩

/-- C9 (amended): a successful build returns only success with no byte
count; the total original size is computed internally
(`calculateTotalSize`, normalizing a zero total to 1) solely to
initialize the progress tracker, and the per-entry original sizes are
recorded inside the container itself. -/
theorem C9_build_return (enc : List Nat → List Nat) (entries : List Entry)
    (t : Nat) (rootName : List Nat) :
    (CompressGo enc entries t rootName).2.2 = Except.ok ()
    ∧ (CompressGo enc entries t rootName).2.1
        = (if (entries.map (fun e => e.content.length)).sum = 0 then 1
           else (entries.map (fun e => e.content.length)).sum)
    ∧ (CompressGo enc entries t rootName).1.data
        = containerBytes enc t rootName entries := by
  refine ⟨rfl, rfl, ?_⟩
  show (compressFiles enc entries t rootName).data
    = containerBytes enc t rootName entries
  rw [compressFiles_data]

/-- C10: Length-field wraparound.  The 2-byte length field the Writer
stores for a relative path (`updateEntryMetadata`) is the big-endian
encoding of the byte length reduced modulo `2^16` — the `uint16` cast is
unchecked — so the stored value equals the true length exactly when the
path is at most 65535 bytes; the same encoder (`beBytes 2`) is used for
the root name in `writeArchiveHeader`, and no error is ever raised for
longer names (the build still returns success). -/
theorem C10_length_wraparound (f : WFile) (offset : Nat) (rp : List Nat)
    (orig comp : Nat) (h : offset ≤ f.data.length) :
    updateEntryMetadata f offset rp orig comp
        = wwrite (wseek f offset) (entryRecord rp orig comp)
    ∧ (entryRecord rp orig comp).take 2 = beBytes 2 rp.length
    ∧ beVal (beBytes 2 rp.length) = rp.length % 2 ^ 16
    ∧ (rp.length ≤ 65535 → beVal (beBytes 2 rp.length) = rp.length)
    ∧ (∀ (g : WFile) (t : Nat) (rootName : List Nat) (es : List Entry),
        g.pos = g.data.length →
        writeArchiveHeader g t rootName es
          = ⟨g.data ++ headerBytes t rootName es.length,
             (g.data ++ headerBytes t rootName es.length).length⟩)
    ∧ ∀ (enc : List Nat → List Nat) (entries : List Entry) (t : Nat)
        (rootName : List Nat),
        (CompressGo enc entries t rootName).2.2 = Except.ok () := by
  refine ⟨updateEntryMetadata_eq f offset rp orig comp h, ?_, ?_, ?_,
    ?_, ?_⟩
  · simp only [entryRecord, List.append_assoc]
    rw [List.take_append_eq_append_take,
      List.take_of_length_le (by simp [beBytes_length])]
    simp [beBytes_length]
  · exact beVal_beBytes 2 rp.length
  · intro hle
    apply beVal_beBytes_of_lt
    norm_num
    omega
  · intro g t rootName es hg
    exact writeArchiveHeader_eq g t rootName es hg
  · intro enc entries t rootName
    rfl

theorem C10_length_wraparound_witness :
    updateEntryMetadata ⟨[0, 0], 0⟩ 0 [7] 1 2
        = wwrite (wseek ⟨[0, 0], 0⟩ 0) (entryRecord [7] 1 2)
    ∧ (entryRecord [7] 1 2).take 2 = beBytes 2 ([7] : List Nat).length
    ∧ beVal (beBytes 2 ([7] : List Nat).length)
        = ([7] : List Nat).length % 2 ^ 16
    ∧ (([7] : List Nat).length ≤ 65535 →
        beVal (beBytes 2 ([7] : List Nat).length)
          = ([7] : List Nat).length)
    ∧ (∀ (g : WFile) (t : Nat) (rootName : List Nat) (es : List Entry),
        g.pos = g.data.length →
        writeArchiveHeader g t rootName es
          = ⟨g.data ++ headerBytes t rootName es.length,
             (g.data ++ headerBytes t rootName es.length).length⟩)
    ∧ ∀ (enc : List Nat → List Nat) (entries : List Entry) (t : Nat)
        (rootName : List Nat),
        (CompressGo enc entries t rootName).2.2 = Except.ok () :=
  C10_length_wraparound ⟨[0, 0], 0⟩ 0 [7] 1 2 (by decide)

end AGCP
